import Mathlib

/-!
# Verification of the BWT client/server core

A shallow embedding, over `List Char`, of the core functions of the
DNA/BWT client-server program (`ServerLauraRuffoni.py`, `ClientEND.py`):

* `validate_input`   — the alphabet validator;
* `DNAtoBWT`         — the forward Burrows-Wheeler transform (rotate, sort,
  take last column);
* `BWTtoDNA`         — the inverse transform (iterated prepend-and-resort);
  the Python `[perm for perm in sort_word if perm[-1] == "$"][0]` indexing can
  raise `IndexError`, so the embedding returns an `Option`;
* `checkAndTranslate`, `output_manager` and the reply assembly of
  `handle_client` — batch parsing and response building;
* the `/0` sentinel framing transformation applied by both peers.

Python strings are modelled as `List Char`; Python string comparison
(used by `np.sort` on an object array of strings) is the lexicographic
order `lexLe` below.
-/

namespace BWTSrv

/-- Boolean lexicographic `≤` on `List Char`, the order Python uses to compare
strings (and hence the order `np.sort` sorts them in): compare code points
pointwise, a proper prefix sorts first. -/
def lexLe : List Char → List Char → Bool
  | _ :: _, [] => false
  | [], _ => true
  | a :: as, b :: bs => a < b || (a == b && lexLe as bs)

/-- `lexLe` as a relation, for `List.insertionSort`. -/
def RowLe (x y : List Char) : Prop := lexLe x y = true

instance : DecidableRel RowLe := fun x y =>
  inferInstanceAs (Decidable (lexLe x y = true))

theorem lexLe_total : ∀ x y : List Char, lexLe x y = true ∨ lexLe y x = true
  | [], _ => Or.inl rfl
  | _ :: _, [] => Or.inr rfl
  | a :: as, b :: bs => by
    rcases lt_trichotomy a b with h | h | h
    · exact Or.inl (by simp [lexLe, h])
    · subst h
      rcases lexLe_total as bs with h' | h'
      · exact Or.inl (by simp [lexLe, h'])
      · exact Or.inr (by simp [lexLe, h'])
    · exact Or.inr (by simp [lexLe, h])

theorem lexLe_trans : ∀ x y z : List Char,
    lexLe x y = true → lexLe y z = true → lexLe x z = true
  | [], _, _, _, _ => rfl
  | a :: as, [], _, h, _ => by simp [lexLe] at h
  | a :: as, b :: bs, [], _, h => by simp [lexLe] at h
  | a :: as, b :: bs, c :: cs, h₁, h₂ => by
    simp only [lexLe, Bool.or_eq_true, Bool.and_eq_true, beq_iff_eq,
      decide_eq_true_eq] at h₁ h₂ ⊢
    rcases h₁ with h₁ | ⟨rfl, h₁⟩
    · rcases h₂ with h₂ | ⟨rfl, _⟩
      · exact Or.inl (h₁.trans h₂)
      · exact Or.inl h₁
    · rcases h₂ with h₂ | ⟨rfl, h₂⟩
      · exact Or.inl h₂
      · exact Or.inr ⟨rfl, lexLe_trans as bs cs h₁ h₂⟩

theorem lexLe_antisymm : ∀ x y : List Char,
    lexLe x y = true → lexLe y x = true → x = y
  | [], [], _, _ => rfl
  | [], _ :: _, _, h => by simp [lexLe] at h
  | _ :: _, [], h, _ => by simp [lexLe] at h
  | a :: as, b :: bs, h₁, h₂ => by
    simp only [lexLe, Bool.or_eq_true, Bool.and_eq_true, beq_iff_eq,
      decide_eq_true_eq] at h₁ h₂
    rcases h₁ with h₁ | ⟨rfl, h₁⟩
    · rcases h₂ with h₂ | ⟨e, _⟩
      · exact absurd h₁ (lt_asymm h₂)
      · exact absurd (e ▸ h₁) (lt_irrefl a)
    · rcases h₂ with h₂ | ⟨_, h₂⟩
      · exact absurd h₂ (lt_irrefl a)
      · exact congrArg (a :: ·) (lexLe_antisymm as bs h₁ h₂)

instance : IsTotal (List Char) RowLe := ⟨lexLe_total⟩
instance : IsTrans (List Char) RowLe := ⟨lexLe_trans⟩
instance : IsAntisymm (List Char) RowLe := ⟨lexLe_antisymm⟩
instance : IsRefl (List Char) RowLe :=
  ⟨fun x => (lexLe_total x x).elim id id⟩

/-- Ascending lexicographic sort of a list of rows: the embedding of
`np.sort` on an object array of Python strings. -/
def sortRows (l : List (List Char)) : List (List Char) := l.insertionSort RowLe

theorem sortRows_perm (l : List (List Char)) : (sortRows l).Perm l :=
  List.perm_insertionSort RowLe l

theorem sortRows_sorted (l : List (List Char)) : List.Sorted RowLe (sortRows l) :=
  List.sorted_insertionSort RowLe l

theorem sortRows_length (l : List (List Char)) : (sortRows l).length = l.length :=
  List.length_insertionSort RowLe l

theorem sortRows_eq_of_perm {l₁ l₂ : List (List Char)} (h : l₁.Perm l₂) :
    sortRows l₁ = sortRows l₂ :=
  List.eq_of_perm_of_sorted ((sortRows_perm l₁).trans (h.trans (sortRows_perm l₂).symm))
    (sortRows_sorted l₁) (sortRows_sorted l₂)

theorem sortRows_of_sorted {l : List (List Char)} (h : List.Sorted RowLe l) :
    sortRows l = l :=
  List.eq_of_perm_of_sorted (sortRows_perm l) (sortRows_sorted l) h

/-- Taking a common-length prefix is monotone for the lexicographic order. -/
theorem lexLe_take : ∀ (j : Nat) (u v : List Char),
    lexLe u v = true → lexLe (u.take j) (v.take j) = true
  | 0, _, _, _ => rfl
  | _ + 1, [], _, _ => rfl
  | _ + 1, _ :: _, [], h => by simp [lexLe] at h
  | j + 1, a :: as, b :: bs, h => by
    simp only [List.take_succ_cons, lexLe, Bool.or_eq_true, Bool.and_eq_true, beq_iff_eq,
      decide_eq_true_eq] at h ⊢
    rcases h with h | ⟨rfl, h⟩
    · exact Or.inl h
    · exact Or.inr ⟨rfl, lexLe_take j as bs h⟩

theorem sortRows_map_take (j : Nat) (l : List (List Char)) :
    sortRows (l.map (List.take j)) = (sortRows l).map (List.take j) := by
  apply List.eq_of_perm_of_sorted (r := RowLe)
  · exact (sortRows_perm _).trans ((sortRows_perm l).map (List.take j)).symm
  · exact sortRows_sorted _
  · exact List.Pairwise.map (List.take j) (fun a b h => lexLe_take j a b h)
      (sortRows_sorted l)

/-- Minimum row length in a list of rows (`0` for the empty list); used only to
compute an upper bound on the number of iterations of the `BWTtoDNA` loop. -/
def minLen : List (List Char) → Nat
  | [] => 0
  | [r] => r.length
  | r :: r' :: rs => min r.length (minLen (r' :: rs))

theorem minLen_le {rows : List (List Char)} {r : List Char} (h : r ∈ rows) :
    minLen rows ≤ r.length := by
  induction rows with
  | nil => cases h
  | cons a rows ih =>
    cases rows with
    | nil => simp only [List.mem_singleton] at h; subst h; exact le_refl _
    | cons b rs =>
      rcases List.mem_cons.mp h with rfl | h
      · exact min_le_left _ _
      · exact le_trans (min_le_right _ _) (ih h)

theorem minLen_mem {rows : List (List Char)} (h : rows ≠ []) :
    ∃ r ∈ rows, minLen rows = r.length := by
  induction rows with
  | nil => exact absurd rfl h
  | cons a rows ih =>
    cases rows with
    | nil => exact ⟨a, List.mem_singleton_self a, rfl⟩
    | cons b rs =>
      rcases ih (List.cons_ne_nil b rs) with ⟨r, hr, hlen⟩
      rcases le_total a.length (minLen (b :: rs)) with hle | hle
      · exact ⟨a, List.mem_cons_self a _, min_eq_left hle⟩
      · exact ⟨r, List.mem_cons_of_mem a hr, by rw [minLen, min_eq_right hle, hlen]⟩

theorem minLen_eq_of_perm {l₁ l₂ : List (List Char)} (h : l₁.Perm l₂) :
    minLen l₁ = minLen l₂ := by
  cases l₁ with
  | nil => rw [← h.nil_eq]
  | cons a l =>
    have h₂ : l₂ ≠ [] := fun hn => List.cons_ne_nil a l (by rw [hn] at h; exact h.eq_nil)
    rcases @minLen_mem (a :: l) (List.cons_ne_nil a l) with ⟨r₁, hr₁, e₁⟩
    rcases minLen_mem h₂ with ⟨r₂, hr₂, e₂⟩
    apply le_antisymm
    · rw [e₂]; exact minLen_le (h.mem_iff.mpr hr₂)
    · rw [e₁]; exact minLen_le (h.mem_iff.mp hr₁)

/-- Membership in a `zipWith` comes from members of the two lists. -/
theorem mem_zipWith {f : Char → List Char → List Char} :
    ∀ {as : List Char} {bs : List (List Char)} {x : List Char},
    x ∈ List.zipWith f as bs → ∃ a ∈ as, ∃ b ∈ bs, x = f a b
  | [], _, _, h => by simp [List.zipWith] at h
  | _ :: _, [], _, h => by simp [List.zipWith] at h
  | a :: as, b :: bs, x, h => by
    rcases List.mem_cons.mp h with rfl | h
    · exact ⟨a, List.mem_cons_self a as, b, List.mem_cons_self b bs, rfl⟩
    · rcases mem_zipWith h with ⟨a', ha, b', hb, e⟩
      exact ⟨a', List.mem_cons_of_mem a ha, b', List.mem_cons_of_mem b hb, e⟩

/-! ## Rotations and the forward transform

`DNAtoBWT` (lines 31-56 of `ServerLauraRuffoni.py`) builds
`word = word[-1] + word[:(len(word) - 1)]` repeatedly — one right rotation
per step, `arr_perm[i]` holding the `(i+1)`-fold rotation — sorts the array,
and joins the last character of every row. -/

/-- One right rotation: move the last character to the front
(`word[-1] + word[:(len(word) - 1)]`). Empty input is left unchanged
(the Python loop body never runs on an empty string). -/
def rotR (l : List Char) : List Char :=
  match l.getLast? with
  | none => []
  | some c => c :: l.dropLast

theorem rotR_nil : rotR [] = [] := rfl

theorem rotR_concat (l : List Char) (c : Char) : rotR (l ++ [c]) = c :: l := by
  rw [rotR, List.getLast?_concat, List.dropLast_concat]

theorem rotR_of_ne_nil {l : List Char} (h : l ≠ []) :
    rotR l = l.getLast h :: l.dropLast := by
  rw [rotR, List.getLast?_eq_getLast l h]

theorem rotR_perm : ∀ l : List Char, (rotR l).Perm l := by
  intro l
  cases e : l.getLast? with
  | none => rw [List.getLast?_eq_none_iff.mp e]; exact List.Perm.refl _
  | some c =>
    conv_rhs => rw [← List.dropLast_append_getLast? c e]
    rw [rotR, e]
    exact (List.perm_append_singleton c l.dropLast).symm

theorem rotR_length (l : List Char) : (rotR l).length = l.length :=
  (rotR_perm l).length_eq

theorem rotR_iterate_length (l : List Char) (k : Nat) :
    (rotR^[k] l).length = l.length := by
  induction k with
  | zero => rfl
  | succ k ih => rw [Function.iterate_succ_apply', rotR_length, ih]

theorem rotR_iterate_perm (l : List Char) (k : Nat) : (rotR^[k] l).Perm l := by
  induction k with
  | zero => exact List.Perm.refl l
  | succ k ih => rw [Function.iterate_succ_apply']; exact (rotR_perm _).trans ih

theorem rotR_eq_rotate (l : List Char) : rotR l = l.rotate (l.length - 1) := by
  cases e : l.getLast? with
  | none =>
    rw [List.getLast?_eq_none_iff.mp e]; rfl
  | some c =>
    conv_lhs => rw [← List.dropLast_append_getLast? c e]
    conv_rhs => rw [← List.dropLast_append_getLast? c e]
    rw [rotR_concat]
    have hlen : (l.dropLast ++ [c]).length - 1 = l.dropLast.length := by
      rw [List.length_append]; simp
    rw [List.rotate_eq_drop_append_take (by rw [hlen]; simp), hlen,
      List.drop_left, List.take_left, List.singleton_append]

theorem rotR_iterate_eq_rotate (l : List Char) (k : Nat) :
    rotR^[k] l = l.rotate (k * (l.length - 1)) := by
  induction k with
  | zero => rw [Function.iterate_zero_apply, Nat.zero_mul, List.rotate_zero]
  | succ k ih =>
    rw [Function.iterate_succ_apply', ih, rotR_eq_rotate, List.length_rotate,
      List.rotate_rotate, Nat.succ_mul]

/-- Rotating a length-`n` word `n` times gives the word back. -/
theorem rotR_iterate_self (l : List Char) : rotR^[l.length] l = l := by
  rw [rotR_iterate_eq_rotate, ← List.rotate_mod, Nat.mul_mod_right l.length _,
    List.rotate_zero]

/-- The rotation list built by the loop of `DNAtoBWT`: entry `i` is the
`(i+1)`-fold right rotation of `word`. -/
def rots (word : List Char) : List (List Char) :=
  (List.range word.length).map (fun i => rotR^[i + 1] word)

/-- The `n` cyclic rotations of `word`, rotation `i` obtained by moving the
last character to the front `i` times (the spec's description). -/
def cyclicRotations (word : List Char) : List (List Char) :=
  (List.range word.length).map (fun i => rotR^[i] word)

/-- Shifting the argument of a map over `range n` by one is a permutation,
provided the function takes the same value at `n` and `0`. -/
theorem map_range_shift_perm (g : Nat → List Char) (n : Nat) (h : g n = g 0) :
    (((List.range n).map (fun i => i + 1)).map g).Perm ((List.range n).map g) := by
  cases n with
  | zero => exact List.Perm.refl _
  | succ m =>
    have h₁ : (List.range (m + 1 + 1)).map g = ((List.range (m + 1)).map g) ++ [g (m + 1)] := by
      rw [List.range_succ, List.map_append]; rfl
    have h₂ : (List.range (m + 1 + 1)).map g =
        g 0 :: (((List.range (m + 1)).map (fun i => i + 1)).map g) := by
      rw [List.range_succ_eq_map, List.map_cons, List.map_map]
    have h₃ : g 0 :: (((List.range (m + 1)).map (fun i => i + 1)).map g) =
        ((List.range (m + 1)).map g) ++ [g 0] := by
      rw [← h₂, h₁, h]
    have hp := List.perm_append_singleton (g 0) ((List.range (m + 1)).map g)
    rw [← h₃] at hp
    exact (List.perm_cons (g 0)).mp hp

theorem rots_perm_cyclicRotations (word : List Char) :
    (rots word).Perm (cyclicRotations word) := by
  have e : rots word = ((List.range word.length).map (fun i => i + 1)).map
      (fun i => rotR^[i] word) := by
    rw [rots, List.map_map]; rfl
  rw [e, cyclicRotations]
  exact map_range_shift_perm _ _ (by rw [rotR_iterate_self, Function.iterate_zero_apply])

theorem map_rotR_rots_perm (word : List Char) :
    ((rots word).map rotR).Perm (rots word) := by
  have e : (rots word).map rotR = ((List.range word.length).map (fun i => i + 1)).map
      (fun i => rotR^[i + 1] word) := by
    rw [rots, List.map_map, List.map_map]
    apply List.map_congr_left
    intro i _
    exact (Function.iterate_succ_apply' rotR (i + 1) word).symm
  have h0 : rotR^[word.length + 1] word = rotR^[0 + 1] word := by
    rw [Function.iterate_succ_apply' rotR word.length word, rotR_iterate_self,
      Function.iterate_succ_apply, Function.iterate_zero_apply]
  rw [e, rots]
  exact map_range_shift_perm (fun i => rotR^[i + 1] word) word.length h0

theorem mem_rots_length {word r : List Char} (h : r ∈ rots word) :
    r.length = word.length := by
  rcases List.mem_map.mp h with ⟨i, _, rfl⟩
  exact rotR_iterate_length word (i + 1)

theorem rots_length (word : List Char) : (rots word).length = word.length := by
  rw [rots, List.length_map, List.length_range]

theorem self_mem_rots {word : List Char} (h : word ≠ []) : word ∈ rots word := by
  have hn : 0 < word.length := List.length_pos.mpr h
  refine List.mem_map.mpr ⟨word.length - 1, List.mem_range.mpr (by omega), ?_⟩
  rw [show word.length - 1 + 1 = word.length from by omega, rotR_iterate_self]

/-- The forward Burrows-Wheeler transform (`DNAtoBWT`): all rotations of the
input, sorted lexicographically, last column extracted. -/
def DNAtoBWT (word : List Char) : List Char :=
  (sortRows (rots word)).map (fun r => r.getLastD '?')

theorem DNAtoBWT_length (word : List Char) : (DNAtoBWT word).length = word.length := by
  rw [DNAtoBWT, List.length_map, sortRows_length, rots_length]

/-! ## The inverse transform

`BWTtoDNA` (lines 59-80) runs
`while len(sort_word) > len(sort_word[0]): sort_word = np.sort(word + sort_word)`.
One loop iteration is `bwtStep`. The loop itself is embedded as `bwtGo`,
structurally recursive on a fuel that is an upper bound on the number of
remaining iterations; `bwtIter_eq` below proves the defining while-loop
equation, so `bwtIter` is extensionally exactly the Python loop. -/

/-- One iteration of the inverse-transform loop: prepend `word[i]` to row `i`
(`word + sort_word`, numpy elementwise string concatenation) and re-sort. -/
def bwtStep (word : List Char) (rows : List (List Char)) : List (List Char) :=
  sortRows (List.zipWith (fun c r => c :: r) word rows)

/-- Upper bound on the number of remaining loop iterations from a row state. -/
def bwtBound (rows : List (List Char)) : Nat := rows.length - minLen rows

/-- Fuelled evaluation of the `while len(sort_word) > len(sort_word[0])` loop. -/
def bwtGo (word : List Char) : Nat → List (List Char) → List (List Char)
  | 0, rows => rows
  | fuel + 1, rows =>
    if rows.length > (rows.headD []).length then bwtGo word fuel (bwtStep word rows)
    else rows

/-- The inverse-transform loop: run `bwtGo` with sufficient fuel. -/
def bwtIter (word : List Char) (rows : List (List Char)) : List (List Char) :=
  bwtGo word (bwtBound rows) rows

theorem bwtStep_length (word : List Char) (rows : List (List Char)) :
    (bwtStep word rows).length = min word.length rows.length := by
  rw [bwtStep, sortRows_length, List.length_zipWith]

theorem minLen_zipWith_cons {word : List Char} {rows : List (List Char)}
    (h : List.zipWith (fun c r => c :: r) word rows ≠ []) :
    minLen rows + 1 ≤ minLen (List.zipWith (fun c r => c :: r) word rows) := by
  rcases minLen_mem h with ⟨x, hx, e⟩
  rcases mem_zipWith hx with ⟨a, _, b, hb, rfl⟩
  rw [e, List.length_cons]
  exact Nat.succ_le_succ (minLen_le hb)

theorem bwtBound_pos {rows : List (List Char)}
    (h : rows.length > (rows.headD []).length) : 0 < bwtBound rows := by
  have hne : rows ≠ [] := by
    intro hn; rw [hn] at h; exact Nat.lt_irrefl 0 h
  have hmem : rows.headD [] ∈ rows := by
    cases rows with
    | nil => exact absurd rfl hne
    | cons a l => exact List.mem_cons_self a l
  have := minLen_le hmem
  rw [bwtBound]; omega

theorem bwtBound_step {word : List Char} {rows : List (List Char)}
    (h : rows.length > (rows.headD []).length) :
    bwtBound (bwtStep word rows) < bwtBound rows := by
  have hpos := bwtBound_pos h
  have hne : rows ≠ [] := by
    intro hn; rw [hn] at h; exact Nat.lt_irrefl 0 h
  have hmem : rows.headD [] ∈ rows := by
    cases rows with
    | nil => exact absurd rfl hne
    | cons a l => exact List.mem_cons_self a l
  have hml := minLen_le hmem
  have hlen : (bwtStep word rows).length = min word.length rows.length :=
    bwtStep_length word rows
  have hmin : minLen (bwtStep word rows) =
      minLen (List.zipWith (fun c r => c :: r) word rows) :=
    minLen_eq_of_perm (sortRows_perm _)
  by_cases hz : List.zipWith (fun c r => c :: r) word rows = []
  · rw [bwtBound, hlen, hmin, hz]
    have h0 : (List.zipWith (fun c r => c :: r) word rows).length = 0 := by rw [hz]; rfl
    rw [List.length_zipWith] at h0
    rw [bwtBound]
    omega
  · have := minLen_zipWith_cons hz
    rw [bwtBound, bwtBound, hlen, hmin]
    omega

theorem bwtGo_of_not_gt {word : List Char} {rows : List (List Char)}
    (h : ¬ rows.length > (rows.headD []).length) :
    ∀ fuel, bwtGo word fuel rows = rows
  | 0 => rfl
  | fuel + 1 => by rw [bwtGo, if_neg h]

theorem bwtGo_congr_fuel (word : List Char) :
    ∀ (b f₁ f₂ : Nat) (rows : List (List Char)), bwtBound rows = b →
      b ≤ f₁ → b ≤ f₂ → bwtGo word f₁ rows = bwtGo word f₂ rows := by
  intro b
  induction b using Nat.strong_induction_on with
  | _ b ih =>
    intro f₁ f₂ rows hb h₁ h₂
    by_cases hg : rows.length > (rows.headD []).length
    · have hpos : 0 < b := hb ▸ bwtBound_pos hg
      rcases Nat.exists_eq_add_of_lt (Nat.lt_of_lt_of_le hpos h₁) with ⟨g₁, e₁⟩
      rcases Nat.exists_eq_add_of_lt (Nat.lt_of_lt_of_le hpos h₂) with ⟨g₂, e₂⟩
      rw [Nat.zero_add] at e₁ e₂
      subst e₁; subst e₂
      rw [bwtGo, if_pos hg, bwtGo, if_pos hg]
      have hlt : bwtBound (bwtStep word rows) < b := hb ▸ bwtBound_step hg
      exact ih _ hlt g₁ g₂ (bwtStep word rows) rfl (by omega) (by omega)
    · rw [bwtGo_of_not_gt hg, bwtGo_of_not_gt hg]

/-- The defining equation of the Python while loop: `bwtIter` iterates
`bwtStep` while the row count exceeds the length of the first row. -/
theorem bwtIter_eq (word : List Char) (rows : List (List Char)) :
    bwtIter word rows =
      if rows.length > (rows.headD []).length then bwtIter word (bwtStep word rows)
      else rows := by
  by_cases hg : rows.length > (rows.headD []).length
  · rw [if_pos hg, bwtIter, bwtIter]
    have hpos := bwtBound_pos hg
    rcases Nat.exists_eq_add_of_lt hpos with ⟨g, e⟩
    rw [Nat.zero_add] at e
    rw [e, bwtGo, if_pos hg]
    exact bwtGo_congr_fuel word (bwtBound (bwtStep word rows)) g _ _ rfl
      (by have := @bwtBound_step word rows hg; omega) (le_refl _)
  · rw [if_neg hg, bwtIter, bwtGo_of_not_gt hg]

/-- Any property preserved by `bwtStep` is preserved by the whole loop. -/
theorem bwtIter_invariant (word : List Char) (P : List (List Char) → Prop)
    (hstep : ∀ rows, P rows → P (bwtStep word rows)) :
    ∀ rows, P rows → P (bwtIter word rows) := by
  have hgo : ∀ fuel rows, P rows → P (bwtGo word fuel rows) := by
    intro fuel
    induction fuel with
    | zero => exact fun _ h => h
    | succ fuel ih =>
      intro rows h
      rw [bwtGo]
      by_cases hg : rows.length > (rows.headD []).length
      · rw [if_pos hg]; exact ih _ (hstep rows h)
      · rw [if_neg hg]; exact h
  exact fun rows h => hgo _ rows h

/-- The inverse Burrows-Wheeler transform (`BWTtoDNA`): sort the characters,
iterate prepend-and-resort, then return the row ending in `$`. The Python
code indexes `[perm for perm in sort_word if perm[-1] == "$"][0]`, which
raises `IndexError` when no row ends in `$`; the embedding returns `none`
in that case (via `head?`). -/
def BWTtoDNA (word : List Char) : Option (List Char) :=
  ((bwtIter word (sortRows (word.map (fun c => [c])))).filter
    (fun r => r.getLastD '?' == '$')).head?

/-! ### Iteration count of the inverse-transform loop -/

/-- Number of iterations the while loop performs, with the same fuel scheme. -/
def bwtCountGo (word : List Char) : Nat → List (List Char) → Nat
  | 0, _ => 0
  | fuel + 1, rows =>
    if rows.length > (rows.headD []).length then
      bwtCountGo word fuel (bwtStep word rows) + 1
    else 0

/-- Number of iterations performed by the `BWTtoDNA` loop from a row state. -/
def bwtIterCount (word : List Char) (rows : List (List Char)) : Nat :=
  bwtCountGo word (bwtBound rows) rows

theorem bwtCountGo_of_not_gt {word : List Char} {rows : List (List Char)}
    (h : ¬ rows.length > (rows.headD []).length) :
    ∀ fuel, bwtCountGo word fuel rows = 0
  | 0 => rfl
  | fuel + 1 => by rw [bwtCountGo, if_neg h]

theorem bwtCountGo_congr_fuel (word : List Char) :
    ∀ (b f₁ f₂ : Nat) (rows : List (List Char)), bwtBound rows = b →
      b ≤ f₁ → b ≤ f₂ → bwtCountGo word f₁ rows = bwtCountGo word f₂ rows := by
  intro b
  induction b using Nat.strong_induction_on with
  | _ b ih =>
    intro f₁ f₂ rows hb h₁ h₂
    by_cases hg : rows.length > (rows.headD []).length
    · have hpos : 0 < b := hb ▸ bwtBound_pos hg
      rcases Nat.exists_eq_add_of_lt (Nat.lt_of_lt_of_le hpos h₁) with ⟨g₁, e₁⟩
      rcases Nat.exists_eq_add_of_lt (Nat.lt_of_lt_of_le hpos h₂) with ⟨g₂, e₂⟩
      rw [Nat.zero_add] at e₁ e₂
      subst e₁; subst e₂
      rw [bwtCountGo, if_pos hg, bwtCountGo, if_pos hg]
      have hlt : bwtBound (bwtStep word rows) < b := hb ▸ bwtBound_step hg
      rw [ih _ hlt g₁ g₂ (bwtStep word rows) rfl (by omega) (by omega)]
    · rw [bwtCountGo_of_not_gt hg, bwtCountGo_of_not_gt hg]

theorem bwtIterCount_eq (word : List Char) (rows : List (List Char)) :
    bwtIterCount word rows =
      if rows.length > (rows.headD []).length then
        bwtIterCount word (bwtStep word rows) + 1
      else 0 := by
  by_cases hg : rows.length > (rows.headD []).length
  · rw [if_pos hg, bwtIterCount, bwtIterCount]
    have hpos := bwtBound_pos hg
    rcases Nat.exists_eq_add_of_lt hpos with ⟨g, e⟩
    rw [Nat.zero_add] at e
    rw [e, bwtCountGo, if_pos hg]
    rw [bwtCountGo_congr_fuel word (bwtBound (bwtStep word rows)) g _ _ rfl
      (by have := @bwtBound_step word rows hg; omega) (le_refl _)]
  · rw [if_neg hg, bwtIterCount, bwtCountGo_of_not_gt hg]

/-! ## Position of the termination symbol under rotation -/

/-- Index of the first `$` in a row (length of the row if there is none). -/
def preLen (r : List Char) : Nat := (r.takeWhile (fun c => c != '$')).length

theorem count_one_decomp {r : List Char} (h : r.count '$' = 1) :
    ∃ E F, r = E ++ '$' :: F ∧ '$' ∉ E ∧ '$' ∉ F := by
  induction r with
  | nil => simp at h
  | cons c r ih =>
    by_cases hc : c = '$'
    · subst hc
      have hr : r.count '$' = 0 := by
        rw [List.count_cons_self] at h; omega
      exact ⟨[], r, rfl, List.not_mem_nil '$', List.count_eq_zero.mp hr⟩
    · have hr : r.count '$' = 1 := by
        rwa [List.count_cons_of_ne (fun e => hc e.symm)] at h
      rcases ih hr with ⟨E, F, rfl, hE, hF⟩
      exact ⟨c :: E, F, rfl, by
        intro hm
        rcases List.mem_cons.mp hm with e | e
        · exact hc e.symm
        · exact hE e, hF⟩

theorem preLen_append {E F : List Char} (hE : '$' ∉ E) :
    preLen (E ++ '$' :: F) = E.length := by
  induction E with
  | nil => simp [preLen, List.takeWhile_cons]
  | cons c E ih =>
    have hc : (c != '$') = true := by
      simp only [bne_iff_ne, ne_eq]
      exact fun e => hE (e ▸ List.mem_cons_self c E)
    have hE' : '$' ∉ E := fun hm => hE (List.mem_cons_of_mem c hm)
    simp only [preLen, List.cons_append, List.takeWhile_cons, hc, if_true,
      List.length_cons]
    exact congrArg (· + 1) (ih hE')

theorem preLen_lt {r : List Char} (h : r.count '$' = 1) : preLen r < r.length := by
  rcases count_one_decomp h with ⟨E, F, rfl, hE, _⟩
  rw [preLen_append hE, List.length_append, List.length_cons]
  omega

theorem count_rotR (r : List Char) : (rotR r).count '$' = r.count '$' :=
  (rotR_perm r).count_eq '$'

theorem count_rotR_iterate (r : List Char) (k : Nat) :
    (rotR^[k] r).count '$' = r.count '$' :=
  (rotR_iterate_perm r k).count_eq '$'

/-- Rotating right moves the index of the unique `$` one to the right,
cyclically. -/
theorem preLen_rotR {r : List Char} (h : r.count '$' = 1) :
    preLen (rotR r) = (preLen r + 1) % r.length := by
  rcases count_one_decomp h with ⟨E, F, rfl, hE, hF⟩
  rcases List.eq_nil_or_concat F with rfl | ⟨F', d, rfl⟩
  · rw [show E ++ ['$'] = E ++ ['$'] from rfl, rotR_concat, preLen_append hE]
    have h0 : preLen ('$' :: E) = 0 := by
      simp [preLen, List.takeWhile_cons]
    rw [h0, List.length_append, List.length_cons, List.length_nil, Nat.mod_self]
  · simp only [List.concat_eq_append] at h hF ⊢
    have hd : d ≠ '$' := fun e => hF (e ▸ List.mem_append_right F' (List.mem_singleton_self d))
    have e1 : E ++ '$' :: (F' ++ [d]) = (E ++ '$' :: F') ++ [d] := by
      rw [List.append_assoc, List.cons_append]
    rw [preLen_append hE]
    conv_lhs => rw [e1, rotR_concat]
    have e2 : d :: (E ++ '$' :: F') = (d :: E) ++ '$' :: F' := rfl
    have hdE : '$' ∉ d :: E := by
      intro hm
      rcases List.mem_cons.mp hm with e | e
      · exact hd e.symm
      · exact hE e
    rw [e2, preLen_append hdE, List.length_cons, List.length_append,
      List.length_cons, List.length_append, List.length_singleton]
    rw [Nat.mod_eq_of_lt (by omega)]

theorem preLen_rotR_iterate {w : List Char} (h : w.count '$' = 1) (k : Nat) :
    preLen (rotR^[k] w) = (preLen w + k) % w.length := by
  induction k with
  | zero =>
    rw [Function.iterate_zero_apply, Nat.add_zero,
      Nat.mod_eq_of_lt (preLen_lt h)]
  | succ k ih =>
    rw [Function.iterate_succ_apply', preLen_rotR (by rw [count_rotR_iterate, h]),
      rotR_iterate_length, ih, Nat.mod_add_mod, ← Nat.add_assoc]

/-- A row with a unique `$` ends with it iff the `$` sits at the last index. -/
theorem getLastD_dollar_iff {r : List Char} (h : r.count '$' = 1) :
    (r.getLastD '?' = '$' ↔ preLen r = r.length - 1) := by
  rcases count_one_decomp h with ⟨E, F, rfl, hE, hF⟩
  rcases List.eq_nil_or_concat F with rfl | ⟨F', d, rfl⟩
  · rw [show E ++ ['$'] = E ++ ['$'] from rfl, List.getLastD_concat, preLen_append hE]
    simp
  · simp only [List.concat_eq_append] at h hF ⊢
    have hd : d ≠ '$' := fun e => hF (e ▸ List.mem_append_right F' (List.mem_singleton_self d))
    have e1 : E ++ '$' :: (F' ++ [d]) = (E ++ '$' :: F') ++ [d] := by
      rw [List.append_assoc, List.cons_append]
    rw [preLen_append hE, List.length_append, List.length_cons, List.length_append,
      List.length_singleton]
    conv_lhs => rw [e1, List.getLastD_concat]
    constructor
    · intro e; exact absurd e hd
    · intro e; omega

/-- The rotations of a word containing exactly one `$` are pairwise distinct. -/
theorem cyclicRotations_nodup {w : List Char} (h : w.count '$' = 1) :
    (cyclicRotations w).Nodup := by
  have hn : 0 < w.length :=
    List.length_pos.mpr (fun e => by rw [e] at h; simp at h)
  rw [cyclicRotations]
  refine List.Nodup.map_on ?_ (List.nodup_range _)
  intro i hi j hj e
  rw [List.mem_range] at hi hj
  have ei := preLen_rotR_iterate h i
  have ej := preLen_rotR_iterate h j
  rw [e, ej] at ei
  have hmod : (preLen w + i) % w.length = (preLen w + j) % w.length := ei.symm
  have : i % w.length = j % w.length :=
    Nat.ModEq.add_left_cancel' (preLen w) hmod
  rwa [Nat.mod_eq_of_lt hi, Nat.mod_eq_of_lt hj] at this

/-! ## Correctness of the inverse transform on forward-transform output -/

theorem getLastD_cons_take {r : List Char} (hr : r ≠ []) {j : Nat}
    (hj : j ≤ r.length - 1) :
    r.getLastD '?' :: r.take j = (rotR r).take (j + 1) := by
  rw [rotR_of_ne_nil hr, List.take_succ_cons]
  congr 1
  · rw [List.getLastD_eq_getLast?, List.getLast?_eq_getLast r hr]
    rfl
  · rw [List.dropLast_eq_take, List.take_take, min_eq_left hj]

theorem mem_sortRows_rots_length {w r : List Char} (h : r ∈ sortRows (rots w)) :
    r.length = w.length :=
  mem_rots_length ((sortRows_perm (rots w)).mem_iff.mp h)

theorem map_rotR_sortRows_perm (w : List Char) :
    (((sortRows (rots w)).map rotR)).Perm (rots w) :=
  ((sortRows_perm (rots w)).map rotR).trans (map_rotR_rots_perm w)

/-- One inverse-loop iteration turns the sorted `(k+1)`-prefixes of the
rotation matrix into its sorted `(k+2)`-prefixes. -/
theorem bwtStep_prefixes {w : List Char} {k : Nat} (hk : k + 2 ≤ w.length) :
    bwtStep (DNAtoBWT w) ((sortRows (rots w)).map (List.take (k + 1))) =
      (sortRows (rots w)).map (List.take (k + 2)) := by
  have h1 : List.zipWith (fun c r => c :: r)
      ((sortRows (rots w)).map (fun r => r.getLastD '?'))
      ((sortRows (rots w)).map (List.take (k + 1))) =
      (sortRows (rots w)).map (fun r => r.getLastD '?' :: r.take (k + 1)) := by
    rw [List.zipWith_map, List.zipWith_same]
  have h2 : (sortRows (rots w)).map (fun r => r.getLastD '?' :: r.take (k + 1)) =
      ((sortRows (rots w)).map rotR).map (List.take (k + 2)) := by
    rw [List.map_map]
    apply List.map_congr_left
    intro r hr
    have hlen := mem_sortRows_rots_length hr
    have hrne : r ≠ [] := by
      intro e; rw [e] at hlen; simp at hlen; omega
    exact getLastD_cons_take hrne (by omega)
  rw [bwtStep, DNAtoBWT, h1, h2,
    sortRows_eq_of_perm ((map_rotR_sortRows_perm w).map (List.take (k + 2))),
    sortRows_map_take]

theorem bwtIter_prefixes_aux {w : List Char} :
    ∀ d k : Nat, k + 1 ≤ w.length → w.length - (k + 1) = d →
    bwtIter (DNAtoBWT w) ((sortRows (rots w)).map (List.take (k + 1))) =
      sortRows (rots w) := by
  intro d
  induction d with
  | zero =>
    intro k hk hd
    have hmap : (sortRows (rots w)).map (List.take (k + 1)) = sortRows (rots w) := by
      have : (sortRows (rots w)).map (List.take (k + 1)) =
          (sortRows (rots w)).map id := by
        apply List.map_congr_left
        intro r hr
        have hlen := mem_sortRows_rots_length hr
        exact List.take_of_length_le (by omega)
      rw [this, List.map_id]
    rw [hmap, bwtIter_eq]
    have hlenM : (sortRows (rots w)).length = w.length := by
      rw [sortRows_length, rots_length]
    cases hM : sortRows (rots w) with
    | nil =>
      rw [if_neg]
      exact fun hgt => Nat.lt_irrefl 0 hgt
    | cons m₀ M' =>
      rw [if_neg]
      have hm₀ := mem_sortRows_rots_length
        (by rw [hM]; exact List.mem_cons_self m₀ M')
      rw [hM] at hlenM
      simp only [List.headD_cons]
      omega
  | succ d ih =>
    intro k hk hd
    have hlt : k + 2 ≤ w.length := by omega
    rw [bwtIter_eq, if_pos, bwtStep_prefixes hlt]
    · exact ih (k + 1) (by omega) (by omega)
    · have hlenM : (sortRows (rots w)).length = w.length := by
        rw [sortRows_length, rots_length]
      cases hM : sortRows (rots w) with
      | nil => rw [hM] at hlenM; simp at hlenM; omega
      | cons m₀ M' =>
        have hm₀ := mem_sortRows_rots_length
          (by rw [hM]; exact List.mem_cons_self m₀ M')
        rw [hM] at hlenM
        simp only [List.length_cons] at hlenM
        simp only [List.map_cons, List.headD_cons, List.length_map, List.length_cons,
          List.length_take]
        omega

/-- The initial sorted single-character rows of `BWTtoDNA (DNAtoBWT w)` are the
sorted `1`-prefixes of the sorted rotation matrix of `w`. -/
theorem init_rows_eq {w : List Char} (hw : w ≠ []) :
    sortRows ((DNAtoBWT w).map (fun c => [c])) =
      (sortRows (rots w)).map (List.take 1) := by
  rw [DNAtoBWT, List.map_map]
  have h1 : (sortRows (rots w)).map ((fun c => [c]) ∘ fun r => r.getLastD '?') =
      ((sortRows (rots w)).map rotR).map (List.take 1) := by
    rw [List.map_map]
    apply List.map_congr_left
    intro r hr
    have hlen := mem_sortRows_rots_length hr
    have hn : 0 < w.length := List.length_pos.mpr hw
    have hrne : r ≠ [] := by
      intro e; rw [e] at hlen; simp at hlen; omega
    show [r.getLastD '?'] = (rotR r).take (0 + 1)
    have h0 := getLastD_cons_take hrne (Nat.zero_le (r.length - 1))
    rw [List.take_zero] at h0
    exact h0
  rw [h1, sortRows_eq_of_perm ((map_rotR_sortRows_perm w).map (List.take 1)),
    sortRows_map_take]

/-- Among the sorted rotations of `seq ++ "$"` (`$` not in `seq`), exactly one
row ends in `$`, namely `seq ++ "$"` itself. -/
theorem filter_dollar_rots {seq : List Char} (h1 : seq ≠ []) (h2 : '$' ∉ seq) :
    (sortRows (rots (seq ++ ['$']))).filter (fun r => r.getLastD '?' == '$') =
      [seq ++ ['$']] := by
  have hcount : (seq ++ ['$']).count '$' = 1 := by
    rw [List.count_append, List.count_eq_zero.mpr h2]
    rfl
  have hn : (seq ++ ['$']).length = seq.length + 1 := by
    rw [List.length_append, List.length_singleton]
  have hpre : preLen (seq ++ ['$']) = seq.length := preLen_append h2
  have hnpos : 0 < seq.length := List.length_pos.mpr h1
  have key : ∀ i, i < (seq ++ ['$']).length →
      (((rotR^[i + 1] (seq ++ ['$'])).getLastD '?' == '$') = true ↔
        i = (seq ++ ['$']).length - 1) := by
    intro i hi
    rw [beq_iff_eq,
      getLastD_dollar_iff (by rw [count_rotR_iterate, hcount]),
      rotR_iterate_length, preLen_rotR_iterate hcount, hpre, hn]
    have e1 : seq.length + (i + 1) = (seq.length + 1) + i := by omega
    rw [e1, Nat.add_mod_left, Nat.mod_eq_of_lt (by omega)]
  have hfil : (List.range (seq ++ ['$']).length).filter
      (fun i => (rotR^[i + 1] (seq ++ ['$'])).getLastD '?' == '$') =
      [(seq ++ ['$']).length - 1] := by
    have hcong : (List.range (seq ++ ['$']).length).filter
        (fun i => (rotR^[i + 1] (seq ++ ['$'])).getLastD '?' == '$') =
        (List.range (seq ++ ['$']).length).filter
          (fun i => i == (seq ++ ['$']).length - 1) := by
      apply List.filter_congr
      intro i hi
      rw [List.mem_range] at hi
      rw [Bool.eq_iff_iff, key i hi, beq_iff_eq]
    rw [hcong, show (seq ++ ['$']).length = ((seq ++ ['$']).length - 1) + 1 from by omega,
      List.range_succ, List.filter_append]
    have hnil : (List.range ((seq ++ ['$']).length - 1)).filter
        (fun i => i == ((seq ++ ['$']).length - 1 + 1) - 1) = [] := by
      apply List.filter_eq_nil_iff.mpr
      intro i hi
      rw [List.mem_range] at hi
      simp only [Nat.add_sub_cancel, beq_iff_eq]
      omega
    have hsingle : ([((seq ++ ['$']).length - 1)]).filter
        (fun i => i == ((seq ++ ['$']).length - 1 + 1) - 1) =
        [(seq ++ ['$']).length - 1] := by
      simp
    rw [hnil, hsingle, List.nil_append, Nat.add_sub_cancel]
  apply List.perm_singleton.mp
  refine ((sortRows_perm (rots (seq ++ ['$']))).filter _).trans ?_
  rw [rots, List.filter_map]
  have hcomp : (List.range (seq ++ ['$']).length).filter
      ((fun r => r.getLastD '?' == '$') ∘ fun i => rotR^[i + 1] (seq ++ ['$'])) =
      [(seq ++ ['$']).length - 1] := hfil
  rw [hcomp, List.map_singleton,
    show (seq ++ ['$']).length - 1 + 1 = (seq ++ ['$']).length from by
      rw [hn]; omega,
    rotR_iterate_self]

/-- Round-trip of the transform engine: for a nonempty `$`-free sequence,
`BWTtoDNA (DNAtoBWT (seq ++ "$")) = seq ++ "$"`. -/
theorem bwt_roundTrip {seq : List Char} (h1 : seq ≠ []) (h2 : '$' ∉ seq) :
    BWTtoDNA (DNAtoBWT (seq ++ ['$'])) = some (seq ++ ['$']) := by
  have hw : seq ++ ['$'] ≠ [] := by simp
  have hn : 1 ≤ (seq ++ ['$']).length := by
    rw [List.length_append]; simp
  have hrun := bwtIter_prefixes_aux (w := seq ++ ['$']) ((seq ++ ['$']).length - 1) 0
    (by omega) (by omega)
  rw [show (0 : Nat) + 1 = 1 from rfl] at hrun
  rw [BWTtoDNA, init_rows_eq hw, hrun, filter_dollar_rots h1 h2]
  rfl

/-! ## Success and failure of the inverse transform -/

theorem getLastD_cons_of_ne_nil {b : List Char} (a : Char) (h : b ≠ []) :
    (a :: b).getLastD '?' = b.getLastD '?' := by
  cases b with
  | nil => exact absurd rfl h
  | cons x xs =>
    rw [List.getLastD_eq_getLast?, List.getLastD_eq_getLast?, List.getLast?_cons_cons]

theorem map_getLastD_zipWith_cons :
    ∀ (as : List Char) (bs : List (List Char)), as.length = bs.length →
    (∀ r ∈ bs, r ≠ []) →
    (List.zipWith (fun c r => c :: r) as bs).map (fun r => r.getLastD '?') =
      bs.map (fun r => r.getLastD '?')
  | [], [], _, _ => rfl
  | [], g :: gs, hLen, _ => absurd hLen (by simp)
  | f :: fs, [], hLen, _ => absurd hLen (by simp)
  | f :: fs, g :: gs, hLen, hne => by
    simp only [List.zipWith_cons_cons, List.map_cons]
    congr 1
    · exact getLastD_cons_of_ne_nil f (hne g (List.mem_cons_self g gs))
    · exact map_getLastD_zipWith_cons fs gs
        (by simpa using hLen) (fun r hr => hne r (List.mem_cons_of_mem g hr))

/-- If the input of `BWTtoDNA` contains a `$`, the final row set contains a
row ending in `$`, so the function succeeds. -/
theorem BWTtoDNA_isSome {word : List Char} (h : '$' ∈ word) :
    ∃ res, BWTtoDNA word = some res := by
  have hinv := bwtIter_invariant word
    (fun rows => rows.length = word.length ∧ (∀ r ∈ rows, r ≠ []) ∧
      (rows.map (fun r => r.getLastD '?')).Perm word)
    (by
      rintro rows ⟨hlen, hne, hperm⟩
      refine ⟨?_, ?_, ?_⟩
      · rw [bwtStep_length, hlen, Nat.min_self]
      · intro r hr
        rcases mem_zipWith ((sortRows_perm _).mem_iff.mp hr) with ⟨a, _, b, _, rfl⟩
        exact List.cons_ne_nil a b
      · refine (((sortRows_perm _).map (fun r => r.getLastD '?')).trans ?_)
        rw [map_getLastD_zipWith_cons word rows hlen.symm hne]
        exact hperm)
    (sortRows (word.map (fun c => [c])))
    (by
      refine ⟨?_, ?_, ?_⟩
      · rw [sortRows_length, List.length_map]
      · intro r hr
        rcases List.mem_map.mp ((sortRows_perm _).mem_iff.mp hr) with ⟨c, _, rfl⟩
        exact List.cons_ne_nil c []
      · refine (((sortRows_perm _).map (fun r => r.getLastD '?')).trans ?_)
        rw [List.map_map]
        have e : ((fun r => List.getLastD r '?') ∘ fun c => [c]) = (id : Char → Char) := rfl
        rw [e, List.map_id])
  rcases hinv with ⟨_, _, hperm⟩
  have hmem : '$' ∈ (bwtIter word (sortRows (word.map fun c => [c]))).map
      (fun r => r.getLastD '?') := hperm.mem_iff.mpr h
  rcases List.mem_map.mp hmem with ⟨r, hr, hlast⟩
  have hrf : r ∈ (bwtIter word (sortRows (word.map fun c => [c]))).filter
      (fun r => r.getLastD '?' == '$') :=
    List.mem_filter.mpr ⟨hr, by rw [beq_iff_eq]; exact hlast⟩
  rw [BWTtoDNA]
  cases e : (bwtIter word (sortRows (word.map fun c => [c]))).filter
      (fun r => r.getLastD '?' == '$') with
  | nil => rw [e] at hrf; cases hrf
  | cons x xs => exact ⟨x, rfl⟩

/-- If the input of `BWTtoDNA` contains no `$`, no reconstructed row ends in
`$`: the Python `[...][0]` raises `IndexError`; the embedding returns `none`. -/
theorem BWTtoDNA_none {word : List Char} (h : '$' ∉ word) :
    BWTtoDNA word = none := by
  have hinv := bwtIter_invariant word
    (fun rows => ∀ r ∈ rows, ∀ c ∈ r, c ∈ word)
    (by
      intro rows hrows r hr c hc
      rcases mem_zipWith ((sortRows_perm _).mem_iff.mp hr) with ⟨a, ha, b, hb, rfl⟩
      rcases List.mem_cons.mp hc with rfl | hc
      · exact ha
      · exact hrows b hb c hc)
    (sortRows (word.map (fun c => [c])))
    (by
      intro r hr c hc
      rcases List.mem_map.mp ((sortRows_perm _).mem_iff.mp hr) with ⟨x, hx, rfl⟩
      rcases List.mem_singleton.mp hc with rfl
      exact hx)
  rw [BWTtoDNA]
  have hfil : (bwtIter word (sortRows (word.map fun c => [c]))).filter
      (fun r => r.getLastD '?' == '$') = [] := by
    apply List.filter_eq_nil_iff.mpr
    intro r hr
    intro hcontra
    rw [beq_iff_eq] at hcontra
    cases hre : r with
    | nil => rw [hre] at hcontra; exact absurd hcontra (by decide)
    | cons x xs =>
      have hne : r ≠ [] := by rw [hre]; exact List.cons_ne_nil x xs
      have hlast : r.getLastD '?' = r.getLast hne := by
        rw [List.getLastD_eq_getLast?, List.getLast?_eq_getLast r hne]; rfl
      have : r.getLastD '?' ∈ r := by rw [hlast]; exact List.getLast_mem hne
      exact h (hinv r hr _ (hcontra ▸ this))
  rw [hfil]
  rfl

/-! ## Iteration count of the inverse loop on uniform rows -/

theorem bwtIter_uniform {word : List Char} :
    ∀ d j : Nat, ∀ rows : List (List Char),
      1 ≤ j → j ≤ word.length → rows.length = word.length →
      (∀ r ∈ rows, r.length = j) → word.length - j = d →
      bwtIterCount word rows = word.length - j ∧
      ∀ r ∈ bwtIter word rows, r.length = word.length := by
  intro d
  induction d with
  | zero =>
    intro j rows h1 hj hlen hall hd
    have hjn : j = word.length := by omega
    have hguard : ¬ rows.length > (rows.headD []).length := by
      cases rows with
      | nil => exact fun hgt => Nat.lt_irrefl 0 hgt
      | cons r₀ rs =>
        have := hall r₀ (List.mem_cons_self r₀ rs)
        simp only [List.headD_cons, List.length_cons]
        simp only [List.length_cons] at hlen
        omega
    rw [bwtIterCount_eq, if_neg hguard, bwtIter_eq, if_neg hguard]
    exact ⟨by omega, fun r hr => by rw [hall r hr]; omega⟩
  | succ d ih =>
    intro j rows h1 hj hlen hall hd
    have hguard : rows.length > (rows.headD []).length := by
      cases rows with
      | nil => simp at hlen; omega
      | cons r₀ rs =>
        have := hall r₀ (List.mem_cons_self r₀ rs)
        simp only [List.headD_cons, List.length_cons]
        simp only [List.length_cons] at hlen
        omega
    have hstep_len : (bwtStep word rows).length = word.length := by
      rw [bwtStep_length, hlen, Nat.min_self]
    have hstep_all : ∀ r ∈ bwtStep word rows, r.length = j + 1 := by
      intro r hr
      rcases mem_zipWith ((sortRows_perm _).mem_iff.mp hr) with ⟨a, _, b, hb, rfl⟩
      rw [List.length_cons, hall b hb]
    have hrec := ih (j + 1) (bwtStep word rows) (by omega) (by omega)
      hstep_len hstep_all (by omega)
    rw [bwtIterCount_eq, if_pos hguard, bwtIter_eq, if_pos hguard]
    exact ⟨by rw [hrec.1]; omega, hrec.2⟩

/-- On a nonempty word the inverse loop performs exactly `n - 1` iterations
and every final row is a full-length row. -/
theorem BWTtoDNA_loop_count {word : List Char} (hw : word ≠ []) :
    bwtIterCount word (sortRows (word.map (fun c => [c]))) = word.length - 1 ∧
    ∀ r ∈ bwtIter word (sortRows (word.map (fun c => [c]))),
      r.length = word.length := by
  have hn : 1 ≤ word.length := List.length_pos.mpr hw
  apply bwtIter_uniform (word.length - 1) 1 (sortRows (word.map (fun c => [c])))
    (le_refl 1) hn
  · rw [sortRows_length, List.length_map]
  · intro r hr
    rcases List.mem_map.mp ((sortRows_perm _).mem_iff.mp hr) with ⟨c, _, rfl⟩
    rfl
  · rfl

/-! ## The alphabet validator -/

/-- The permitted extended-nucleotide alphabet (`validDNA` in the source). -/
def validDNA : List Char :=
  ['A', 'C', 'G', 'T', 'R', 'Y', 'S', 'W', 'K', 'M', 'B', 'D', 'H', 'V', 'N', '-']

/-- `validate_input` (lines 11-28): `seq.replace("$", "")` removes every `$`;
the sequence is then invalid iff it is empty or some remaining character,
uppercased, is outside `validDNA`. The `try/raise/except Errore` construction
always returns a boolean. -/
def validate_input (seq : List Char) : Bool :=
  if (seq.filter (fun c => c != '$')).length = 0 ∨
      ¬ ((seq.filter (fun c => c != '$')).all
          (fun c => validDNA.contains c.toUpper) = true) then
    false
  else true

/-- Modelled from the spec: the Alphabet Validator of section 4.1 as the spec
words it — "strips at most one termination symbol (`$`) if present anywhere in
the body" — for comparison with the source's `validate_input`, which strips
every occurrence. -/
def removeOneDollar : List Char → List Char
  | [] => []
  | c :: rest => if c = '$' then rest else c :: removeOneDollar rest

/-- Modelled from the spec: validity after stripping at most one `$`:
non-empty and every remaining character case-insensitively in the alphabet. -/
def validate_spec (seq : List Char) : Bool :=
  decide (removeOneDollar seq ≠ [] ∧
    ∀ c ∈ removeOneDollar seq, c.toUpper ∈ validDNA)

/-- Characterisation of `validate_input`: valid iff the `$`-stripped body is
nonempty and every non-`$` character of the body, uppercased, is in the
alphabet. -/
theorem validate_input_iff (seq : List Char) :
    validate_input seq = true ↔
      (seq.filter (fun c => c != '$') ≠ [] ∧
        ∀ c ∈ seq, c ≠ '$' → c.toUpper ∈ validDNA) := by
  rw [validate_input]
  by_cases hcond : (seq.filter (fun c => c != '$')).length = 0 ∨
      ¬ ((seq.filter (fun c => c != '$')).all
          (fun c => validDNA.contains c.toUpper) = true)
  · rw [if_pos hcond]
    constructor
    · intro hcontra; exact absurd hcontra (by decide)
    · rintro ⟨hne, hall⟩
      exfalso
      rcases hcond with hlen | hnall
      · exact hne (List.length_eq_zero.mp hlen)
      · apply hnall
        rw [List.all_eq_true]
        intro c hc
        rcases List.mem_filter.mp hc with ⟨hcs, hcne⟩
        exact List.elem_iff.mpr (hall c hcs (bne_iff_ne.mp hcne))
  · rw [if_neg hcond]
    push_neg at hcond
    rcases hcond with ⟨hlen, hall⟩
    simp only [true_iff]
    constructor
    · intro he; exact hlen (by rw [he]; rfl)
    · intro c hc hcne
      rw [List.all_eq_true] at hall
      have := hall c (List.mem_filter.mpr ⟨hc, bne_iff_ne.mpr hcne⟩)
      exact List.elem_iff.mp this

/-! ## Sentinel framing -/

/-- The framing strip applied by both peers (`msg.decode().replace("/0", "")`,
server line 173, client line 143): remove every left-to-right,
non-overlapping occurrence of the two-character terminator `/0`. -/
def stripFrame : List Char → List Char
  | [] => []
  | [c] => [c]
  | c :: d :: rest =>
    if c = '/' ∧ d = '0' then stripFrame rest
    else c :: stripFrame (d :: rest)

/-- Modelled from the spec: the claimed framing step, which strips exactly one
occurrence of the terminator `/0` (the first one), leaving every other byte of
the buffer unchanged. -/
def removeFirstFrame : List Char → List Char
  | [] => []
  | [c] => [c]
  | c :: d :: rest =>
    if c = '/' ∧ d = '0' then rest
    else c :: removeFirstFrame (d :: rest)

/-- Whether the 2-byte terminator `/0` occurs in the buffer. -/
def occursFrame : List Char → Bool
  | [] => false
  | [_] => false
  | c :: d :: rest => if c = '/' ∧ d = '0' then true else occursFrame (d :: rest)

/-- A terminator-free payload followed by one trailing `/0` is recovered
exactly by the replace-all framing strip. -/
theorem stripFrame_clean_payload :
    ∀ p : List Char, occursFrame p = false → stripFrame (p ++ ['/', '0']) = p := by
  intro p
  induction p using occursFrame.induct with
  | case1 =>
    intro _
    simp [stripFrame]
  | case2 c =>
    intro _
    show stripFrame (c :: '/' :: ['0']) = [c]
    rw [stripFrame]
    rw [if_neg (by intro hcd; exact absurd hcd.2 (by decide))]
    simp [stripFrame]
  | case3 c d rest hcd =>
    intro h
    rw [occursFrame, if_pos hcd] at h
    cases h
  | case4 c d rest hcd ih =>
    intro h
    rw [occursFrame, if_neg hcd] at h
    show stripFrame (c :: d :: (rest ++ ['/', '0'])) = c :: d :: rest
    rw [stripFrame, if_neg hcd]
    exact congrArg (c :: ·) (ih h)

/-! ## The batch parser (`checkAndTranslate`, lines 83-134)

The Python loop scans `lines` (non-empty lines of the message plus an
appended synthetic `"<"`), accumulating `elem` between headers; seeing a
header closes the pending record: an error tag if `elem` fails validation
(and `i > 0`), else a transformed record according to the pending header's
marker. A BWT-direction record whose body contains no `$` makes `BWTtoDNA`
raise `IndexError`, killing the handler with no reply; the embedding
propagates this as `none` / `CTResult.crashed`. -/

/-- Python `line.startswith(c)` for a single-character prefix. -/
def startsWithCh (c : Char) : List Char → Bool
  | [] => false
  | d :: _ => d == c

/-- A line is a header when it starts with `>` or `<`. -/
def isHeader (l : List Char) : Bool := startsWithCh '>' l || startsWithCh '<' l

/-- Python `line.strip("\n")`: drop leading and trailing newline characters. -/
def stripChar (c : Char) (l : List Char) : List Char :=
  ((l.dropWhile (fun d => d == c)).reverse.dropWhile (fun d => d == c)).reverse

/-- State of the parsing loop: accumulated body `elem`, pending `header`,
collected `error_headers` and output lines `out`. -/
structure CTState where
  elem : List Char
  header : List Char
  errors : List (List Char)
  out : List (List Char)
deriving DecidableEq

/-- The loop body of `checkAndTranslate` for line index `i`; `none` models the
uncaught `IndexError` thrown by `BWTtoDNA` on a `$`-free body. -/
def ctStep (i : Nat) (st : CTState) (line : List Char) : Option CTState :=
  if isHeader line = true then
    (if validate_input st.elem = false ∧ 0 < i then
      some { st with errors := st.errors ++ [st.header] }
    else if startsWithCh '>' st.header = true then
      some { st with out := st.out ++ [['<', ' '] ++ st.header.tail,
        DNAtoBWT (st.elem ++ ['$'])] }
    else if startsWithCh '<' st.header = true then
      match BWTtoDNA st.elem with
      | some res =>
        some { st with out := st.out ++ [['>', ' '] ++ st.header.tail, res] }
      | none => none
    else some st).map (fun st2 => { st2 with elem := [], header := line })
  else
    some { st with elem := st.elem ++ stripChar '\n' line }

/-- The `for i in range(0, len(lines))` loop. -/
def ctLoop : Nat → CTState → List (List Char) → Option CTState
  | _, st, [] => some st
  | i, st, l :: ls =>
    match ctStep i st l with
    | some st' => ctLoop (i + 1) st' ls
    | none => none

/-- Result of `checkAndTranslate`: the Python function returns `False`
(`rejected`), raises an uncaught exception (`crashed`), or returns the pair
`(error_headers, out)` (`accepted`). -/
inductive CTResult where
  | rejected
  | crashed
  | accepted (errors : List (List Char)) (out : List (List Char))
deriving DecidableEq

/-- Initial loop state: `elem = ""`, `header = "%%%"`. -/
def initState : CTState := ⟨[], ['%', '%', '%'], [], []⟩

/-- The non-empty lines of the message
(`[line for line in msg.split("\n") if line != ""]`). -/
def splitLines (msg : List Char) : List (List Char) :=
  (msg.splitOn '\n').filter (fun l => !l.isEmpty)

/-- `checkAndTranslate`: append the synthetic closing header `"<"`, reject if
fewer than 3 lines remain or the first is no header, else run the loop. -/
def checkAndTranslate (msg : List Char) : CTResult :=
  if (splitLines msg ++ [['<']]).length < 3 ∨
      ¬ (isHeader ((splitLines msg ++ [['<']]).headD []) = true) then
    CTResult.rejected
  else
    match ctLoop 0 initState (splitLines msg ++ [['<']]) with
    | some st => CTResult.accepted st.errors st.out
    | none => CTResult.crashed

/-- `output_manager` (lines 137-154): an error block
`"%%%" + "%%%".join(error_headers) + "\n"` when there are error headers,
then `"\n".join(out)`. -/
def output_manager (error_headers out : List (List Char)) : List Char :=
  (if 0 < error_headers.length then
    ['%', '%', '%'] ++ List.intercalate ['%', '%', '%'] error_headers ++ ['\n']
  else []) ++ List.intercalate ['\n'] out

/-- The fixed reply sent for a rejected batch (line 182). -/
def inputErrorMsg : List Char :=
  ("Input Error: either empty file or no header in first line").toList

/-- The reply `handle_client` sends for a decoded message: the fixed error
string on a rejected batch, the assembled output otherwise; no reply at all
(`none`) when the parser crashes on a `$`-free BWT body. -/
def serverReply (msg : List Char) : Option (List Char) :=
  match checkAndTranslate msg with
  | CTResult.rejected => some inputErrorMsg
  | CTResult.crashed => none
  | CTResult.accepted e o => some (output_manager e o)

/-! ### Characterisation of the loop body -/

theorem startsWith_lt_not_gt {l : List Char} (h : startsWithCh '<' l = true) :
    startsWithCh '>' l = false := by
  cases l with
  | nil => exact absurd h (by decide)
  | cons d rest =>
    rw [startsWithCh] at h ⊢
    rw [beq_iff_eq] at h
    subst h
    rfl

theorem ctStep_header_error {i : Nat} {st : CTState} {line : List Char}
    (hl : isHeader line = true) (hv : validate_input st.elem = false) (hi : 0 < i) :
    ctStep i st line = some ⟨[], line, st.errors ++ [st.header], st.out⟩ := by
  rw [ctStep, if_pos hl, if_pos ⟨hv, hi⟩]
  rfl

theorem ctStep_header_dna {i : Nat} {st : CTState} {line : List Char}
    (hl : isHeader line = true) (hv : validate_input st.elem = true)
    (hh : startsWithCh '>' st.header = true) :
    ctStep i st line = some ⟨[], line, st.errors,
      st.out ++ [['<', ' '] ++ st.header.tail, DNAtoBWT (st.elem ++ ['$'])]⟩ := by
  rw [ctStep, if_pos hl, if_neg (by simp [hv]), if_pos hh]
  rfl

theorem ctStep_header_bwt {i : Nat} {st : CTState} {line res : List Char}
    (hl : isHeader line = true) (hv : validate_input st.elem = true)
    (hh : startsWithCh '<' st.header = true)
    (hres : BWTtoDNA st.elem = some res) :
    ctStep i st line = some ⟨[], line, st.errors,
      st.out ++ [['>', ' '] ++ st.header.tail, res]⟩ := by
  rw [ctStep, if_pos hl, if_neg (by simp [hv]),
    if_neg (by simp [startsWith_lt_not_gt hh]), if_pos hh, hres]
  rfl

theorem ctStep_header_bwt_crash {i : Nat} {st : CTState} {line : List Char}
    (hl : isHeader line = true) (hv : validate_input st.elem = true)
    (hh : startsWithCh '<' st.header = true)
    (hres : BWTtoDNA st.elem = none) :
    ctStep i st line = none := by
  rw [ctStep, if_pos hl, if_neg (by simp [hv]),
    if_neg (by simp [startsWith_lt_not_gt hh]), if_pos hh, hres]
  rfl

theorem ctStep_zero_header {st : CTState} {line : List Char}
    (hl : isHeader line = true)
    (h1 : startsWithCh '>' st.header = false)
    (h2 : startsWithCh '<' st.header = false) :
    ctStep 0 st line = some ⟨[], line, st.errors, st.out⟩ := by
  rw [ctStep, if_pos hl, if_neg (fun hc => Nat.lt_irrefl 0 hc.2),
    if_neg (by simp [h1]), if_neg (by simp [h2])]
  rfl

theorem ctStep_body {i : Nat} {st : CTState} {line : List Char}
    (hl : isHeader line = false) :
    ctStep i st line = some { st with elem := st.elem ++ stripChar '\n' line } := by
  rw [ctStep, if_neg (by simp [hl])]

theorem ctLoop_cons_some {i : Nat} {st st2 : CTState} {l : List Char}
    {ls : List (List Char)} (hstep : ctStep i st l = some st2) :
    ctLoop i st (l :: ls) = ctLoop (i + 1) st2 ls := by
  rw [ctLoop, hstep]

theorem ctLoop_cons_none {i : Nat} {st : CTState} {l : List Char}
    {ls : List (List Char)} (hstep : ctStep i st l = none) :
    ctLoop i st (l :: ls) = none := by
  rw [ctLoop, hstep]

/-- Every header line processed at index `i ≥ 1` contributes exactly one
outcome — one error tag (2 units: one tag, counted double) or one transformed
record (2 output lines); other lines contribute nothing. -/
theorem ctLoop_outcome_count :
    ∀ (ls : List (List Char)) (i : Nat) (st st' : CTState), 1 ≤ i →
      isHeader st.header = true →
      ctLoop i st ls = some st' →
      2 * st'.errors.length + st'.out.length =
        2 * st.errors.length + st.out.length + 2 * (ls.filter isHeader).length := by
  intro ls
  induction ls with
  | nil =>
    intro i st st' _ _ h
    rw [ctLoop] at h
    injection h with h
    rw [← h]
    simp
  | cons l ls ih =>
    intro i st st' hi hhdr h
    by_cases hl : isHeader l = true
    · have hflen : ((l :: ls).filter isHeader).length =
          (ls.filter isHeader).length + 1 := by
        rw [List.filter_cons_of_pos hl, List.length_cons]
      by_cases hv : validate_input st.elem = false
      · rw [ctLoop_cons_some (ctStep_header_error hl hv hi)] at h
        have := ih (i + 1) _ st' (by omega) hl h
        simp only [List.length_append, List.length_cons, List.length_nil] at this
        omega
      · have hvt : validate_input st.elem = true := by
          cases hvi : validate_input st.elem
          · exact absurd hvi hv
          · rfl
        rcases Bool.or_eq_true_iff.mp hhdr with hgt | hlt
        · rw [ctLoop_cons_some (ctStep_header_dna hl hvt hgt)] at h
          have := ih (i + 1) _ st' (by omega) hl h
          simp only [List.length_append, List.length_cons, List.length_nil] at this
          omega
        · cases hres : BWTtoDNA st.elem with
          | none => rw [ctLoop_cons_none (ctStep_header_bwt_crash hl hvt hlt hres)] at h
                    cases h
          | some res =>
            rw [ctLoop_cons_some (ctStep_header_bwt hl hvt hlt hres)] at h
            have := ih (i + 1) _ st' (by omega) hl h
            simp only [List.length_append, List.length_cons, List.length_nil] at this
            omega
    · have hlf : isHeader l = false := by
        cases hli : isHeader l
        · rfl
        · exact absurd hli hl
      rw [ctLoop_cons_some (ctStep_body hlf)] at h
      have := ih (i + 1) ⟨st.elem ++ stripChar '\n' l, st.header, st.errors, st.out⟩
        st' (by omega) hhdr h
      rw [List.filter_cons_of_neg (by simp [hlf])]
      simpa using this

theorem headD_append_single (l : List (List Char)) (x : List Char) :
    (l ++ [x]).headD [] = l.headD x := by
  cases l with
  | nil => rfl
  | cons a as => rfl

/-- Rejection happens exactly on messages with fewer than 2 non-empty lines,
or whose first non-empty line is not a header; the reply is then the fixed
error string. -/
theorem checkAndTranslate_rejected_iff (msg : List Char) :
    (checkAndTranslate msg = CTResult.rejected ↔
      ((splitLines msg).length < 2 ∨
        isHeader ((splitLines msg).headD ['<']) = false)) ∧
    (checkAndTranslate msg = CTResult.rejected →
      serverReply msg = some inputErrorMsg) := by
  constructor
  · rw [checkAndTranslate]
    by_cases hcond : (splitLines msg ++ [['<']]).length < 3 ∨
        ¬ (isHeader ((splitLines msg ++ [['<']]).headD []) = true)
    · rw [if_pos hcond]
      simp only [true_iff]
      rw [List.length_append, List.length_singleton, headD_append_single] at hcond
      rcases hcond with hlen | hne
      · left; omega
      · cases hsp : splitLines msg with
        | nil => left; decide
        | cons a as =>
          right
          rw [hsp] at hne
          simp only [List.headD_cons] at hne ⊢
          cases hia : isHeader a
          · rfl
          · exact absurd hia hne
    · rw [if_neg hcond]
      push_neg at hcond
      rcases hcond with ⟨hlen, hhd⟩
      rw [List.length_append, List.length_singleton] at hlen
      rw [headD_append_single] at hhd
      constructor
      · intro hcontra
        cases hloop : ctLoop 0 initState (splitLines msg ++ [['<']]) with
        | none => rw [hloop] at hcontra; cases hcontra
        | some st => rw [hloop] at hcontra; cases hcontra
      · intro hcontra
        rcases hcontra with h2 | hh
        · omega
        · cases hsp : splitLines msg with
          | nil => rw [hsp] at hlen; simp at hlen
          | cons a as =>
            rw [hsp] at hh hhd
            simp only [List.headD_cons] at hh hhd
            rw [hh] at hhd
            cases hhd
  · intro h
    rw [serverReply, h]

/-- For every accepted message, twice the number of error tags plus the
number of output lines equals twice the number of header lines: every header
yields exactly one outcome, and each transformed record occupies two output
lines. -/
theorem checkAndTranslate_count {msg : List Char} {e o : List (List Char)}
    (h : checkAndTranslate msg = CTResult.accepted e o) :
    2 * e.length + o.length = 2 * ((splitLines msg).filter isHeader).length := by
  rw [checkAndTranslate] at h
  by_cases hcond : (splitLines msg ++ [['<']]).length < 3 ∨
      ¬ (isHeader ((splitLines msg ++ [['<']]).headD []) = true)
  · rw [if_pos hcond] at h; cases h
  · rw [if_neg hcond] at h
    push_neg at hcond
    rcases hcond with ⟨hlen, hhd⟩
    cases hloop : ctLoop 0 initState (splitLines msg ++ [['<']]) with
    | none => rw [hloop] at h; cases h
    | some st =>
      rw [hloop] at h
      injection h with h1 h2
      cases hsp : splitLines msg with
      | nil =>
        rw [hsp] at hlen
        simp at hlen
      | cons a as =>
        rw [hsp] at hloop hhd
        rw [headD_append_single] at hhd
        simp only [List.headD_cons] at hhd
        rw [List.cons_append] at hloop
        rw [ctLoop_cons_some (ctStep_zero_header hhd (by decide) (by decide))] at hloop
        have hcount := ctLoop_outcome_count (as ++ [['<']]) 1
          ⟨[], a, initState.errors, initState.out⟩ st (le_refl 1) hhd hloop
        simp only [initState, List.length_nil, List.filter_append] at hcount
        rw [List.filter_cons_of_pos hhd]
        have hsyn : (([['<']] : List (List Char)).filter isHeader) = [['<']] := by decide
        rw [hsyn] at hcount
        simp only [List.length_append, List.length_cons, List.length_nil] at hcount
        rw [← h1, ← h2]
        rw [List.length_cons]
        omega

/-! ## Serialized batches

To reason about whole batches we serialize a list of records (marker, label,
one body line) into a message and track the parser through it. -/

structure SeqRec where
  marker : Char
  label : List Char
  body : List Char
deriving DecidableEq

/-- The header line of a record: marker followed by label. -/
def headerLine (r : SeqRec) : List Char := r.marker :: r.label

/-- The two lines a record contributes to the message. -/
def recLines (r : SeqRec) : List (List Char) := [headerLine r, r.body]

def serializeLines (rs : List SeqRec) : List (List Char) := (rs.map recLines).flatten

/-- The message text of a batch: lines joined by newlines. -/
def serialize (rs : List SeqRec) : List Char :=
  List.intercalate ['\n'] (serializeLines rs)

/-- A record's body passes the validator. -/
def recValid (r : SeqRec) : Bool := validate_input r.body

/-- The two output lines the parser produces for a valid record: flipped
marker plus label, then the transformed body. -/
def outPair (r : SeqRec) : List (List Char) :=
  if r.marker = '>' then
    [['<', ' '] ++ r.label, DNAtoBWT (r.body ++ ['$'])]
  else
    [['>', ' '] ++ r.label, (BWTtoDNA r.body).getD []]

/-- All output lines of a batch, in input order of its valid records. -/
def outLines (rs : List SeqRec) : List (List Char) :=
  ((rs.filter recValid).map outPair).flatten

/-- The error tags of a batch: the header lines of its invalid records. -/
def errorTags (rs : List SeqRec) : List (List Char) :=
  (rs.filter (fun r => !(recValid r))).map headerLine

/-- Well-formedness of a record for serialization: a real marker, a nonempty
single-line body that does not itself parse as a header, and — so that the
parser does not crash — a `$` in the body of any valid BWT-direction record. -/
def goodRec (r : SeqRec) : Prop :=
  (r.marker = '>' ∨ r.marker = '<') ∧ r.body ≠ [] ∧ isHeader r.body = false ∧
    '\n' ∉ r.label ∧ '\n' ∉ r.body ∧
    (validate_input r.body = true → r.marker = '<' → '$' ∈ r.body)

instance (r : SeqRec) : Decidable (goodRec r) := by
  unfold goodRec
  infer_instance

theorem dropWhile_beq_eq_self {c : Char} {l : List Char} (h : c ∉ l) :
    l.dropWhile (fun d => d == c) = l := by
  cases l with
  | nil => rfl
  | cons a as =>
    rw [List.dropWhile_cons, if_neg]
    simp only [beq_iff_eq]
    exact fun e => h (e ▸ List.mem_cons_self a as)

theorem stripChar_eq_self {c : Char} {l : List Char} (h : c ∉ l) :
    stripChar c l = l := by
  rw [stripChar, dropWhile_beq_eq_self h,
    dropWhile_beq_eq_self (fun hm => h (List.mem_reverse.mp hm)),
    List.reverse_reverse]

theorem isHeader_headerLine {r : SeqRec} (h : r.marker = '>' ∨ r.marker = '<') :
    isHeader (headerLine r) = true := by
  rcases h with h | h <;> simp [isHeader, headerLine, startsWithCh, h]

theorem errorTags_cons (r : SeqRec) (rs : List SeqRec) :
    errorTags (r :: rs) = errorTags [r] ++ errorTags rs := by
  by_cases hv : recValid r = true
  · simp [errorTags, hv]
  · have hvf : recValid r = false := by
      cases h0 : recValid r
      · rfl
      · exact absurd h0 hv
    simp [errorTags, hvf]

theorem outLines_cons (r : SeqRec) (rs : List SeqRec) :
    outLines (r :: rs) = outLines [r] ++ outLines rs := by
  by_cases hv : recValid r = true
  · simp [outLines, hv]
  · have hvf : recValid r = false := by
      cases h0 : recValid r
      · rfl
      · exact absurd h0 hv
    simp [outLines, hvf]

theorem ctStep_close_valid {i : Nat} {E O : List (List Char)} {p : SeqRec}
    {line : List Char} (hl : isHeader line = true) (hv : recValid p = true)
    (hm : p.marker = '>' ∨ p.marker = '<') (hnc : p.marker = '<' → '$' ∈ p.body) :
    ctStep i ⟨p.body, headerLine p, E, O⟩ line =
      some ⟨[], line, E, O ++ outPair p⟩ := by
  rcases hm with hm | hm
  · rw [outPair, if_pos hm,
      @ctStep_header_dna i ⟨p.body, headerLine p, E, O⟩ line hl hv
        (by simp [startsWithCh, headerLine, hm])]
    rfl
  · rcases BWTtoDNA_isSome (hnc hm) with ⟨res, hres⟩
    rw [outPair, if_neg (by rw [hm]; decide), hres,
      @ctStep_header_bwt i ⟨p.body, headerLine p, E, O⟩ line res hl hv
        (by simp [startsWithCh, headerLine, hm]) hres]
    rfl

/-- Seeing a header line at index `i ≥ 1` closes the pending record `p`:
its error tag or its output pair is appended, `elem` resets, the new line
becomes the pending header. -/
theorem ctStep_close {i : Nat} {E O : List (List Char)} {p : SeqRec}
    {line : List Char} (hi : 1 ≤ i) (hl : isHeader line = true) (hp : goodRec p) :
    ctStep i ⟨p.body, headerLine p, E, O⟩ line =
      some ⟨[], line, E ++ errorTags [p], O ++ outLines [p]⟩ := by
  by_cases hv : recValid p = true
  · rw [ctStep_close_valid hl hv hp.1 (fun hm => hp.2.2.2.2.2 hv hm)]
    have he : errorTags [p] = [] := by simp [errorTags, hv]
    have ho : outLines [p] = outPair p := by simp [outLines, hv]
    rw [he, ho, List.append_nil]
  · have hvf : recValid p = false := by
      cases h0 : recValid p
      · rfl
      · exact absurd h0 hv
    have he : errorTags [p] = [headerLine p] := by simp [errorTags, hvf]
    have ho : outLines [p] = [] := by simp [outLines, hvf]
    rw [he, ho, List.append_nil,
      @ctStep_header_error i ⟨p.body, headerLine p, E, O⟩ line hl hvf hi]

/-- Running the loop over a serialized batch with pending record `p`:
each record contributes its error tag or output pair, in order. -/
theorem ctLoop_serialized :
    ∀ (rs : List SeqRec) (i : Nat) (p : SeqRec) (E O : List (List Char)),
      1 ≤ i → goodRec p → (∀ r ∈ rs, goodRec r) →
      ctLoop i ⟨p.body, headerLine p, E, O⟩ (serializeLines rs ++ [['<']]) =
        some ⟨[], ['<'], E ++ errorTags (p :: rs), O ++ outLines (p :: rs)⟩ := by
  intro rs
  induction rs with
  | nil =>
    intro i p E O hi hp _
    rw [show serializeLines [] ++ [['<']] = [['<']] from rfl,
      ctLoop_cons_some (ctStep_close hi (by decide) hp), ctLoop]
  | cons r rs' ih =>
    intro i p E O hi hp hgood
    have hgr : goodRec r := hgood r (List.mem_cons_self r rs')
    have hlines : serializeLines (r :: rs') ++ [['<']] =
        headerLine r :: r.body :: (serializeLines rs' ++ [['<']]) := by
      rw [serializeLines, List.map_cons, List.flatten_cons]
      rfl
    rw [hlines,
      ctLoop_cons_some (ctStep_close hi (isHeader_headerLine hgr.1) hp),
      ctLoop_cons_some (ctStep_body hgr.2.2.1)]
    rw [stripChar_eq_self hgr.2.2.2.2.1]
    have hfin1 : E ++ errorTags (p :: r :: rs') =
        (E ++ errorTags [p]) ++ errorTags (r :: rs') := by
      rw [errorTags_cons p (r :: rs'), List.append_assoc]
    have hfin2 : O ++ outLines (p :: r :: rs') =
        (O ++ outLines [p]) ++ outLines (r :: rs') := by
      rw [outLines_cons p (r :: rs'), List.append_assoc]
    rw [hfin1, hfin2]
    exact ih (i + 1 + 1) r (E ++ errorTags [p]) (O ++ outLines [p]) (by omega) hgr
      (fun x hx => hgood x (List.mem_cons_of_mem r hx))

theorem serializeLines_mem {rs : List SeqRec} {l : List Char}
    (h : l ∈ serializeLines rs) : ∃ r ∈ rs, l = headerLine r ∨ l = r.body := by
  rw [serializeLines] at h
  rcases List.mem_flatten.mp h with ⟨x, hx, hlx⟩
  rcases List.mem_map.mp hx with ⟨r, hr, rfl⟩
  simp [recLines] at hlx
  exact ⟨r, hr, hlx⟩

theorem splitLines_serialize {rs : List SeqRec} (hne : rs ≠ [])
    (hgood : ∀ r ∈ rs, goodRec r) :
    splitLines (serialize rs) = serializeLines rs := by
  have hnl : ∀ l ∈ serializeLines rs, '\n' ∉ l := by
    intro l hl
    rcases serializeLines_mem hl with ⟨r, hr, hcase | hcase⟩
    · subst hcase
      rw [headerLine]
      intro hmem
      rcases List.mem_cons.mp hmem with e | e
      · rcases (hgood r hr).1 with hm | hm <;> rw [hm] at e <;> exact absurd e (by decide)
      · exact (hgood r hr).2.2.2.1 e
    · subst hcase
      exact (hgood r hr).2.2.2.2.1
  have hlsne : serializeLines rs ≠ [] := by
    cases rs with
    | nil => exact absurd rfl hne
    | cons r rs' =>
      rw [serializeLines, List.map_cons, List.flatten_cons, recLines]
      simp
  rw [splitLines, serialize, List.splitOn_intercalate (serializeLines rs) '\n' hnl hlsne]
  apply List.filter_eq_self.mpr
  intro l hl
  rcases serializeLines_mem hl with ⟨r, hr, hcase | hcase⟩
  · subst hcase
    rfl
  · subst hcase
    cases hb : r.body with
    | nil => exact absurd hb (hgood r hr).2.1
    | cons x xs => rfl

/-- `checkAndTranslate` on a serialized batch of well-formed records accepts
and produces exactly the error tags of the invalid records and the output
pairs of the valid ones, in input order. -/
theorem checkAndTranslate_serialize {rs : List SeqRec} (hne : rs ≠ [])
    (hgood : ∀ r ∈ rs, goodRec r) :
    checkAndTranslate (serialize rs) =
      CTResult.accepted (errorTags rs) (outLines rs) := by
  cases rs with
  | nil => exact absurd rfl hne
  | cons r rs' =>
    have hgr : goodRec r := hgood r (List.mem_cons_self r rs')
    have hsp := splitLines_serialize hne hgood
    have hlines : serializeLines (r :: rs') = headerLine r :: r.body :: serializeLines rs' := by
      rw [serializeLines, List.map_cons, List.flatten_cons]
      rfl
    have hchain : ctLoop 0 initState
        (headerLine r :: r.body :: (serializeLines rs' ++ [['<']])) =
        some ⟨[], ['<'], errorTags (r :: rs'), outLines (r :: rs')⟩ := by
      rw [ctLoop_cons_some (ctStep_zero_header (isHeader_headerLine hgr.1)
          (by decide) (by decide)),
        ctLoop_cons_some (ctStep_body hgr.2.2.1),
        stripChar_eq_self hgr.2.2.2.2.1]
      exact ctLoop_serialized rs' (0 + 1 + 1) r [] [] (by omega) hgr
        (fun x hx => hgood x (List.mem_cons_of_mem r hx))
    have hcond : ¬ ((headerLine r :: r.body :: (serializeLines rs' ++ [['<']])).length < 3 ∨
        ¬ (isHeader ((headerLine r :: r.body ::
            (serializeLines rs' ++ [['<']])).headD []) = true)) := by
      rintro (hlen | hhd)
      · simp only [List.length_cons, List.length_append, List.length_singleton] at hlen
        omega
      · exact hhd (by rw [List.headD_cons]; exact isHeader_headerLine hgr.1)
    rw [checkAndTranslate, hsp, hlines, List.cons_append, List.cons_append,
      if_neg hcond, hchain]

theorem outPair_length (r : SeqRec) : (outPair r).length = 2 := by
  rw [outPair]
  split <;> rfl

theorem flatten_map_outPair_length (l : List SeqRec) :
    ((l.map outPair).flatten).length = 2 * l.length := by
  induction l with
  | nil => rfl
  | cons r l ih =>
    rw [List.map_cons, List.flatten_cons, List.length_append, outPair_length, ih,
      List.length_cons]
    omega

theorem filter_length_split (l : List SeqRec) :
    (l.filter recValid).length + (l.filter (fun r => !(recValid r))).length = l.length := by
  induction l with
  | nil => rfl
  | cons r l ih =>
    by_cases hv : recValid r = true
    · rw [List.filter_cons_of_pos hv, List.filter_cons_of_neg (by simp [hv]),
        List.length_cons, List.length_cons]
      omega
    · have hvf : recValid r = false := by
        cases h0 : recValid r
        · rfl
        · exact absurd h0 hv
      rw [List.filter_cons_of_neg (by simp [hvf]), List.filter_cons_of_pos (by simp [hvf]),
        List.length_cons, List.length_cons]
      omega

theorem output_manager_take {E O : List (List Char)} (h : 0 < E.length) :
    (output_manager E O).take 3 = ['%', '%', '%'] := by
  rw [output_manager, if_pos h, List.append_assoc, List.append_assoc,
    show (3 : Nat) = (['%', '%', '%'] : List Char).length from rfl, List.take_left]

/-! ## Batches with exactly one invalid record (C5) -/

/-- A batch of well-formed records with exactly one invalid record is
accepted with exactly one error tag and `N - 1` transformed records
(2·(N-1) output lines), and the reply carries the `%%%` sentinel prefix. -/
theorem single_invalid_batch {rs : List SeqRec}
    (hgood : ∀ r ∈ rs, goodRec r)
    (hone : (rs.filter (fun r => !(recValid r))).length = 1) :
    ∃ E O, checkAndTranslate (serialize rs) = CTResult.accepted E O ∧
      E.length = 1 ∧ O.length = 2 * (rs.length - 1) ∧
      (output_manager E O).take 3 = ['%', '%', '%'] ∧
      serverReply (serialize rs) = some (output_manager E O) := by
  have hne : rs ≠ [] := by
    intro h
    rw [h] at hone
    simp at hone
  have hct := checkAndTranslate_serialize hne hgood
  refine ⟨errorTags rs, outLines rs, hct, ?_, ?_, ?_, ?_⟩
  · rw [errorTags, List.length_map, hone]
  · rw [outLines, flatten_map_outPair_length]
    have hsplit := filter_length_split rs
    omega
  · apply output_manager_take
    rw [errorTags, List.length_map, hone]
    exact Nat.one_pos
  · rw [serverReply, hct]

/-! ## The claims -/

/-- **C1** — Round-trip: for every non-empty sequence `seq` over the permitted
alphabet, `BWTtoDNA (DNAtoBWT (seq ++ "$")) = seq ++ "$"`. -/
theorem claim_C1 (seq : List Char) (h1 : seq ≠ []) (h2 : ∀ c ∈ seq, c ∈ validDNA) :
    BWTtoDNA (DNAtoBWT (seq ++ ['$'])) = some (seq ++ ['$']) :=
  bwt_roundTrip h1 (fun hmem => absurd (h2 '$' hmem) (by decide))

theorem claim_C1_witness :
    BWTtoDNA (DNAtoBWT (['A', 'C', 'G', 'T'] ++ ['$'])) =
      some (['A', 'C', 'G', 'T'] ++ ['$']) :=
  claim_C1 ['A', 'C', 'G', 'T'] (by decide) (by decide)

/-- **C2** counterexample — the claim says `validate_input` strips *at most
one* `$`; on the body `"A$$"` the source validator returns `True` (it strips
every `$` — Python `replace`), while the claim's at-most-one-`$` validator
(`validate_spec`, modelled from the spec's words) returns `False`, because
the second `$` is outside the alphabet. -/
theorem claim_C2_counterexample :
    validate_input ['A', '$', '$'] = true ∧ validate_spec ['A', '$', '$'] = false := by
  decide

/-- **C2** amended — `validate_input body` is `true` iff, after stripping
*every* termination symbol `$`, the stripped body is non-empty and every
remaining character, compared case-insensitively, belongs to the alphabet.
The function is total (returns a `Bool`) by construction. -/
theorem claim_C2 (body : List Char) :
    validate_input body = true ↔
      (body.filter (fun c => c != '$') ≠ [] ∧
        ∀ c ∈ body, c ≠ '$' → c.toUpper ∈ validDNA) :=
  validate_input_iff body

/-- **C3** counterexample — the claim says the framing step strips exactly one
occurrence of `/0`, leaving further occurrences unchanged; on the buffer
`"A/0B/0"` the code (`replace("/0", "")`) yields `"AB"`, whereas removing
exactly one occurrence (`removeFirstFrame`, modelled from the spec's words)
yields `"AB/0"`. -/
theorem claim_C3_counterexample :
    stripFrame ['A', '/', '0', 'B', '/', '0'] = ['A', 'B'] ∧
    removeFirstFrame ['A', '/', '0', 'B', '/', '0'] = ['A', 'B', '/', '0'] ∧
    (['A', 'B'] : List Char) ≠ ['A', 'B', '/', '0'] := by
  decide

/-- **C3** amended — the framing step strips *every* occurrence of `/0`; in
particular, for a payload containing no occurrence of the terminator, the
payload followed by the single trailing terminator is recovered exactly. -/
theorem claim_C3 (p : List Char) (h : occursFrame p = false) :
    stripFrame (p ++ ['/', '0']) = p :=
  stripFrame_clean_payload p h

theorem claim_C3_witness :
    occursFrame ['A', 'B'] = false ∧
    stripFrame (['A', 'B'] ++ ['/', '0']) = ['A', 'B'] :=
  ⟨by decide, claim_C3 ['A', 'B'] (by decide)⟩

/-- **C4** — for every word containing exactly one `$`, the `n` cyclic
rotations (rotation `i` moving the last character to the front `i` times)
are pairwise distinct, and `DNAtoBWT word` is the concatenation of the last
characters of those rotations in ascending lexicographic order. -/
theorem claim_C4 (w : List Char) (h : w.count '$' = 1) :
    (cyclicRotations w).Nodup ∧
    DNAtoBWT w = (sortRows (cyclicRotations w)).map (fun r => r.getLastD '?') := by
  refine ⟨cyclicRotations_nodup h, ?_⟩
  rw [DNAtoBWT, sortRows_eq_of_perm (rots_perm_cyclicRotations w)]

theorem claim_C4_witness :
    (['A', 'C', '$'] : List Char).count '$' = 1 ∧
    ((cyclicRotations ['A', 'C', '$']).Nodup ∧
      DNAtoBWT ['A', 'C', '$'] =
        (sortRows (cyclicRotations ['A', 'C', '$'])).map (fun r => r.getLastD '?')) :=
  ⟨by decide, claim_C4 ['A', 'C', '$'] (by decide)⟩

/-- **C5** counterexample — the message `"<a\nACGT\n>b\n12"` is a batch of
`N = 2` headers with exactly one invalid record (`>b` with body `12`); the
claim says the reply contains one error tag and one transformed record, but
the code crashes (uncaught `IndexError` in `BWTtoDNA` on the valid,
`$`-free BWT body `ACGT`) and no reply is sent at all. -/
theorem claim_C5_counterexample :
    checkAndTranslate ['<', 'a', '\n', 'A', 'C', 'G', 'T', '\n', '>', 'b', '\n', '1', '2'] =
      CTResult.crashed ∧
    serverReply ['<', 'a', '\n', 'A', 'C', 'G', 'T', '\n', '>', 'b', '\n', '1', '2'] =
      none := by
  decide

/-- **C5** amended — for every serialized batch of `N` well-formed records
with exactly one invalid record, where additionally every *valid*
BWT-direction record's body contains a `$` (so the inverse transform cannot
crash), the reply contains exactly one error tag and `N - 1` transformed
records (2·(N-1) output lines), and starts with the `%%%` sentinel. -/
theorem claim_C5 (rs : List SeqRec) (hgood : ∀ r ∈ rs, goodRec r)
    (hone : (rs.filter (fun r => !(recValid r))).length = 1) :
    ∃ E O, checkAndTranslate (serialize rs) = CTResult.accepted E O ∧
      E.length = 1 ∧ O.length = 2 * (rs.length - 1) ∧
      (output_manager E O).take 3 = ['%', '%', '%'] ∧
      serverReply (serialize rs) = some (output_manager E O) :=
  single_invalid_batch hgood hone

theorem claim_C5_witness :
    ∃ E O, checkAndTranslate
        (serialize [⟨'>', ['a'], ['A', 'C']⟩, ⟨'>', ['b'], ['1']⟩]) =
        CTResult.accepted E O ∧
      E.length = 1 ∧ O.length = 2 * (2 - 1) ∧
      (output_manager E O).take 3 = ['%', '%', '%'] ∧
      serverReply (serialize [⟨'>', ['a'], ['A', 'C']⟩, ⟨'>', ['b'], ['1']⟩]) =
        some (output_manager E O) :=
  claim_C5 [⟨'>', ['a'], ['A', 'C']⟩, ⟨'>', ['b'], ['1']⟩] (by decide) (by decide)

/-- **C6** counterexample — the claim says a message with fewer than 3
non-empty lines is rejected; `">a\nAC"` has 2 non-empty lines yet is
accepted, because the synthetic closing header is appended *before* the
`len(lines) < 3` check. -/
theorem claim_C6_counterexample :
    (splitLines ['>', 'a', '\n', 'A', 'C']).length < 3 ∧
    checkAndTranslate ['>', 'a', '\n', 'A', 'C'] ≠ CTResult.rejected := by
  decide

/-- **C6** amended — `checkAndTranslate` yields `Rejected` exactly when the
message has fewer than 2 non-empty lines or its first non-empty line does
not start with `>` or `<`; on `Rejected` the server's reply is the fixed
error string. -/
theorem claim_C6 (msg : List Char) :
    (checkAndTranslate msg = CTResult.rejected ↔
      ((splitLines msg).length < 2 ∨
        isHeader ((splitLines msg).headD ['<']) = false)) ∧
    (checkAndTranslate msg = CTResult.rejected →
      serverReply msg = some inputErrorMsg) :=
  checkAndTranslate_rejected_iff msg

theorem claim_C6_witness :
    (checkAndTranslate [] = CTResult.rejected ↔
      ((splitLines []).length < 2 ∨
        isHeader ((splitLines []).headD ['<']) = false)) ∧
    serverReply [] = some inputErrorMsg :=
  ⟨(claim_C6 []).1, (claim_C6 []).2 (by decide)⟩

/-- **C7** — for every accepted message, every header line yields exactly one
outcome (an error tag, counting 2, or one transformed record of 2 output
lines): twice the number of error tags plus the number of output lines is
twice the number of header lines — no record is dropped at end-of-input. -/
theorem claim_C7 {msg : List Char} {e o : List (List Char)}
    (h : checkAndTranslate msg = CTResult.accepted e o) :
    2 * e.length + o.length = 2 * ((splitLines msg).filter isHeader).length :=
  checkAndTranslate_count h

theorem claim_C7_witness :
    2 * ([['<', 'b']] : List (List Char)).length +
      ([['<', ' ', 'a'], ['C', '$', 'A']] : List (List Char)).length =
    2 * ((splitLines ['>', 'a', '\n', 'A', 'C', '\n', '<', 'b', '\n', 'x']).filter
        isHeader).length :=
  claim_C7 (by decide)

/-- **C8** — marker flip: for a successfully transformed record (header line
seen, body valid), an input header `>label` produces the output header
`< label` (marker flipped to `<`, label carried over) with the forward
transform of the body, and an input header `<label` produces `> label` with
the inverse transform of the body. -/
theorem claim_C8 (i : Nat) (st : CTState) (line lab : List Char)
    (hl : isHeader line = true) (hv : validate_input st.elem = true) :
    (st.header = '>' :: lab →
      ctStep i st line = some ⟨[], line, st.errors,
        st.out ++ [['<', ' '] ++ lab, DNAtoBWT (st.elem ++ ['$'])]⟩) ∧
    (∀ res, st.header = '<' :: lab → BWTtoDNA st.elem = some res →
      ctStep i st line = some ⟨[], line, st.errors,
        st.out ++ [['>', ' '] ++ lab, res]⟩) := by
  constructor
  · intro hh
    rw [ctStep_header_dna hl hv (by rw [hh]; rfl), hh]
    rfl
  · intro res hh hres
    rw [ctStep_header_bwt hl hv (by rw [hh]; rfl) hres, hh]
    rfl

theorem claim_C8_witness :
    ctStep 1 ⟨['A', 'C'], ['>', 'x'], [], []⟩ ['<'] =
      some ⟨[], ['<'], [], [['<', ' ', 'x'], DNAtoBWT (['A', 'C'] ++ ['$'])]⟩ :=
  (claim_C8 1 ⟨['A', 'C'], ['>', 'x'], [], []⟩ ['<'] ['x'] (by decide) (by decide)).1 rfl

/-- **C9** — for every non-empty word containing exactly one `$`, the
prepend-and-resort loop of `BWTtoDNA` performs exactly `n - 1` iterations
(and hence terminates), and every row at that point is a full length-`n`
row. -/
theorem claim_C9 (word : List Char) (h1 : word ≠ []) (_h2 : word.count '$' = 1) :
    bwtIterCount word (sortRows (word.map (fun c => [c]))) = word.length - 1 ∧
    ∀ r ∈ bwtIter word (sortRows (word.map (fun c => [c]))),
      r.length = word.length :=
  BWTtoDNA_loop_count h1

theorem claim_C9_witness :
    bwtIterCount ['A', 'C', '$'] (sortRows (['A', 'C', '$'].map (fun c => [c]))) = 2 ∧
    ∀ r ∈ bwtIter ['A', 'C', '$'] (sortRows (['A', 'C', '$'].map (fun c => [c]))),
      r.length = 3 :=
  claim_C9 ['A', 'C', '$'] (by decide) (by decide)

/-- **C10** — for every non-empty input containing no `$`, no reconstructed
row ends in `$`, so the final selection `[...][0]` fails: in the total
embedding `BWTtoDNA` returns `none` (the Python code raises `IndexError`). -/
theorem claim_C10 (word : List Char) (_h1 : word ≠ []) (h2 : '$' ∉ word) :
    BWTtoDNA word = none :=
  BWTtoDNA_none h2

theorem claim_C10_witness : BWTtoDNA ['A', 'C', 'G', 'T'] = none :=
  claim_C10 ['A', 'C', 'G', 'T'] (by decide) (by decide)

end BWTSrv
